import Mathlib

/-!
Verification of the heading-extraction / TOC subsystem of the mdserve
markdown server.  The Go functions `generateHeadingID`, `cleanMarkdown`,
`extractHeadings`, `fixIndentedCodeBlocks` and the client-side
`buildTocTree` are embedded shallowly as computable functions over
`List Char` (one `Char` per rune; all inputs in the claims are ASCII).
Go regular expressions are compiled by hand into equivalent scanners;
each definition mirrors the source construct it is named after.
-/

/-- The character class of Go's regexp `\s` (RE2 Perl class):
tab, newline, form feed, carriage return, space. -/
def reSpace (c : Char) : Bool :=
  c = ' ' || c = '\t' || c = '\n' || c = '\x0c' || c = '\r'

/-- Go's `unicode.IsSpace`, used by `strings.TrimSpace`: the Unicode
White_Space property. -/
def goIsSpace (c : Char) : Bool :=
  (0x09 ≤ c.toNat && c.toNat ≤ 0x0d) || c = ' ' || c.toNat = 0x85 || c.toNat = 0xa0 ||
  c.toNat = 0x1680 || (0x2000 ≤ c.toNat && c.toNat ≤ 0x200a) ||
  c.toNat = 0x2028 || c.toNat = 0x2029 || c.toNat = 0x202f ||
  c.toNat = 0x205f || c.toNat = 0x3000

/-- The character class of Go's regexp `\w`: ASCII letters, digits, underscore. -/
def reWord (c : Char) : Bool :=
  c.isAlpha || c.isDigit || c = '_'

/-- The backtick character (Go writes it as a raw-string delimiter trick). -/
def btk : Char := Char.ofNat 96

/-- `strings.ToLower` restricted to ASCII (all claim inputs are ASCII;
non-ASCII characters are folded to hyphens later regardless). -/
def goToLower (c : Char) : Char :=
  if 'A' ≤ c ∧ c ≤ 'Z' then Char.ofNat (c.toNat + 32) else c

/-- Drop the trailing run of characters satisfying `p`. -/
def dropTrailing (p : Char → Bool) (s : List Char) : List Char :=
  (s.reverse.dropWhile p).reverse

/-- Go `strings.TrimSpace`: trim leading and trailing Unicode whitespace. -/
def trimSpace (s : List Char) : List Char :=
  dropTrailing goIsSpace (s.dropWhile goIsSpace)

/-- Go `strings.Trim(s, "-")`: trim leading and trailing hyphens. -/
def trimDash (s : List Char) : List Char :=
  dropTrailing (· = '-') (s.dropWhile (· = '-'))

/-- Go `strings.Split(s, "\n")`: split into lines at newline separators
(an empty input yields one empty line). -/
def splitNl : List Char → List (List Char)
  | [] => [[]]
  | c :: rest =>
    if c = '\n' then [] :: splitNl rest
    else
      match splitNl rest with
      | [] => [[c]]
      | l :: ls => (c :: l) :: ls

/-- Go `strings.Join(lines, "\n")`. -/
def joinNl : List (List Char) → List Char
  | [] => []
  | [l] => l
  | l :: ls => l ++ '\n' :: joinNl ls

/-- Worker for `ReplaceAllString(pat+, "-")` where `pat` is a character
class: replaces each maximal run of characters satisfying `p` by a single
hyphen.  The flag records whether the previous character was in a run. -/
def replRunsGo (p : Char → Bool) : Bool → List Char → List Char
  | _, [] => []
  | inRun, c :: rest =>
    if p c then
      (if inRun then replRunsGo p true rest else '-' :: replRunsGo p true rest)
    else c :: replRunsGo p false rest

/-- `regexp.MustCompile(class+).ReplaceAllString(s, "-")`. -/
def replRuns (p : Char → Bool) (s : List Char) : List Char :=
  replRunsGo p false s

/-- Character class of `[^\w\s-]` in `generateHeadingID`. -/
def notWordSpaceDash (c : Char) : Bool :=
  !(reWord c || reSpace c || c = '-')

/-- Character class of `[\s_]` in `generateHeadingID`. -/
def spaceOrUnderscore (c : Char) : Bool :=
  reSpace c || c = '_'

/-- Go `generateHeadingID`: lower-case, replace runs of `[^\w\s-]` by `-`,
replace runs of `[\s_]` by `-`, collapse runs of `-`, trim hyphens. -/
def generateHeadingID (text : List Char) : List Char :=
  trimDash (replRuns (· = '-') (replRuns spaceOrUnderscore
    (replRuns notWordSpaceDash (text.map goToLower))))

/-- Slug derivation written from the words of the claim for C1:
lower-case, replace every maximal run of characters that are not
letters, digits, underscore, or hyphen with a single hyphen, collapse
consecutive hyphens into one, trim leading and trailing hyphens
(underscores preserved). -/
def claimSlug (text : List Char) : List Char :=
  trimDash (replRuns (· = '-')
    (replRuns (fun c => !(c.isAlpha || c.isDigit || c = '_' || c = '-'))
      (text.map goToLower)))

/-- Characters that are not ASCII letters, digits, or hyphens (the
folded class of the amended C1 slug rule). -/
def notAlnumDash (c : Char) : Bool :=
  !(c.isAlpha || c.isDigit || c = '-')

/-- Slug derivation written from the amended words for C1: lower-case,
replace every maximal run of characters that are not letters, digits, or
hyphens (so underscores and whitespace included) with a single hyphen,
collapse consecutive hyphens into one, trim leading and trailing
hyphens. -/
def amendedSlug (text : List Char) : List Char :=
  trimDash (replRuns (· = '-')
    (replRuns notAlnumDash (text.map goToLower)))

/-- Fused normal form of the slug body: keep letters and digits, turn
every other maximal run (hyphens included) into a single hyphen.  Both
the code pipeline and the amended-specification pipeline reduce to
this. -/
def canonGo : Bool → List Char → List Char
  | _, [] => []
  | afterDash, c :: rest =>
    if c.isAlpha || c.isDigit then c :: canonGo false rest
    else if afterDash then canonGo true rest
    else '-' :: canonGo true rest

example : generateHeadingID ("2.0 Release".toList) = ("2-0-release".toList) := by rfl

example : generateHeadingID ("a_b".toList) = ("a-b".toList) := by rfl

example : claimSlug ("a_b".toList) = ("a_b".toList) := by rfl

example : amendedSlug ("a_b".toList) = ("a-b".toList) := by rfl

/-- Generic engine for `ReplaceAllString`: at each position try `tm`
(match at the head, returning the replacement and the remainder after
the match); on failure advance one character.  Every matcher used below
consumes at least one character, and the fuel is set to the input
length, so the fuel never runs out. -/
def scanRepl (tm : List Char → Option (List Char × List Char)) :
    Nat → List Char → List Char
  | _, [] => []
  | 0, s => s
  | fuel + 1, c :: rest =>
    match tm (c :: rest) with
    | some (rep, rem) => rep ++ scanRepl tm fuel rem
    | none => c :: scanRepl tm fuel rest

/-- Matcher for "`[^`]+`" (inline code); the replacement
`strings.Trim(match, "`")` is the body between the backticks. -/
def tryInlineCode (s : List Char) : Option (List Char × List Char) :=
  match s with
  | c :: rest =>
    if c = btk then
      let body := rest.takeWhile (· ≠ btk)
      let rem := rest.drop body.length
      match rem with
      | d :: rem2 => if body ≠ [] ∧ d = btk then some (body, rem2) else none
      | [] => none
    else none
  | [] => none

/-- Matcher for a pattern `od od body cd cd` with `body` a nonempty run
of characters other than `d` (used for `**x**`, `__x__`, `~~x~~`). -/
def tryDouble (d : Char) (s : List Char) : Option (List Char × List Char) :=
  match s with
  | c1 :: c2 :: rest =>
    if c1 = d ∧ c2 = d then
      let body := rest.takeWhile (· ≠ d)
      let rem := rest.drop body.length
      if body ≠ [] ∧ rem.take 2 = [d, d] then some (body, rem.drop 2) else none
    else none
  | _ => none

/-- Matcher for `d body d` with `body` a nonempty run of characters
other than `d` (used for `*x*` and `_x_`). -/
def trySingle (d : Char) (s : List Char) : Option (List Char × List Char) :=
  match s with
  | c :: rest =>
    if c = d then
      let body := rest.takeWhile (· ≠ d)
      let rem := rest.drop body.length
      match rem with
      | e :: rem2 => if body ≠ [] ∧ e = d then some (body, rem2) else none
      | [] => none
    else none
  | [] => none

/-- Matcher for the bracket-paren tail of a link: given the input just
after the opening bracket, recognise `text](url)` with `text` matching
`textCls` (nonempty unless `emptyOk`) and `url` a nonempty run without
a closing paren; returns `(text, remainder)`. -/
def tryBracketParen (emptyOk : Bool) (s : List Char) :
    Option (List Char × List Char) :=
  let text := s.takeWhile (· ≠ ']')
  let rem := s.drop text.length
  match rem with
  | ']' :: '(' :: rem2 =>
    let url := rem2.takeWhile (· ≠ ')')
    let rem3 := rem2.drop url.length
    match rem3 with
    | ')' :: rem4 =>
      if (emptyOk ∨ text ≠ []) ∧ url ≠ [] then some (text, rem4) else none
    | _ => none
  | _ => none

/-- Matcher for links `[text](url)` (group 1 kept). -/
def tryLink (s : List Char) : Option (List Char × List Char) :=
  match s with
  | '[' :: rest => tryBracketParen false rest
  | _ => none

/-- Matcher for images `![alt](url)` (group 1, possibly empty, kept). -/
def tryImage (s : List Char) : Option (List Char × List Char) :=
  match s with
  | '!' :: '[' :: rest => tryBracketParen true rest
  | _ => none

/-- Matcher for HTML tags `<[^>]+>` (replaced by nothing). -/
def tryHtml (s : List Char) : Option (List Char × List Char) :=
  match s with
  | '<' :: rest =>
    let body := rest.takeWhile (· ≠ '>')
    let rem := rest.drop body.length
    match rem with
    | '>' :: rem2 => if body ≠ [] then some ([], rem2) else none
    | _ => none
  | _ => none

/-- One `ReplaceAll` pass over the whole input. -/
def replacePass (tm : List Char → Option (List Char × List Char))
    (s : List Char) : List Char :=
  scanRepl tm s.length s

/-- Go `cleanMarkdown`: strip inline code, bold, italic, links, images,
strikethrough and HTML tags from heading text, in the source's order,
then trim surrounding whitespace. -/
def cleanMarkdown (text : List Char) : List Char :=
  trimSpace
    (replacePass tryHtml
      (replacePass (tryDouble '~')
        (replacePass tryImage
          (replacePass tryLink
            (replacePass (trySingle '_')
              (replacePass (tryDouble '_')
                (replacePass (trySingle '*')
                  (replacePass (tryDouble '*')
                    (replacePass tryInlineCode text)))))))))

example : cleanMarkdown ("**Bold** and *it* and `code`".toList) =
    ("Bold and it and code".toList) := by rfl

example : cleanMarkdown ("[text](url) ~~x~~ <b>y</b>".toList) =
    ("text x y".toList) := by rfl

example : cleanMarkdown ("Setup".toList) = ("Setup".toList) := by rfl

/-- Go regexp `^\s*` + three-or-more backticks, via `MatchString`: the
code-fence test of `extractHeadings`, applied to the raw line. -/
def isFenceLine (line : List Char) : Bool :=
  3 ≤ ((line.dropWhile reSpace).takeWhile (· = btk)).length

/-- `headingRegex = ^(#{1,6})\s+(.+)$` via `FindStringSubmatch`:
returns the heading level (count of leading hashes, 1..6) and group 2.
When everything after the whitespace run is empty the engine backtracks
one whitespace character into group 2 (`.` matches it); this only
happens on lines with trailing whitespace, which the caller has already
trimmed away. -/
def headingMatch (s : List Char) : Option (Nat × List Char) :=
  let hashes := s.takeWhile (· = '#')
  let rest := s.drop hashes.length
  let sp := rest.takeWhile reSpace
  let rem := rest.drop sp.length
  if 1 ≤ hashes.length ∧ hashes.length ≤ 6 ∧ sp ≠ [] then
    match rem with
    | [] => if 2 ≤ sp.length then some (hashes.length, sp.drop (sp.length - 1)) else none
    | _ => some (hashes.length, rem)
  else none

/-- Locate the first occurrence of an open-brace/hash pair followed by at
least one more character; returns the characters before it and the
characters after the pair. -/
def findBrace : List Char → Option (List Char × List Char)
  | '{' :: '#' :: c :: rest => some ([], c :: rest)
  | c :: rest => (findBrace rest).map (fun pr => (c :: pr.1, pr.2))
  | [] => none

/-- `explicitIDRegex = \s*\{#([^}]+)\}\s*$` applied to the raw heading
text: `FindStringSubmatch` for the identifier, `ReplaceAllString` +
`TrimSpace` for the remaining display text.  A match must end at the end
of the string: after stripping the trailing `\s` run the text must end
in a closing brace, the identifier is everything after the first
brace-hash within the maximal closing-brace-free run before it, and the
remaining text is everything before that brace-hash (trimmed). -/
def findExplicitID (t : List Char) : Option (List Char × List Char) :=
  let rev := t.reverse.dropWhile reSpace
  match rev with
  | '}' :: revBody =>
    let bodyR := (revBody.takeWhile (· ≠ '}')).reverse
    let pre := (revBody.dropWhile (· ≠ '}')).reverse
    match findBrace bodyR with
    | some (before, id) => some (id, trimSpace (pre ++ before))
    | none => none
  | _ => none

/-- Lines 178–182 of the source: if the identifier starts with an ASCII
digit, prepend the literal `heading-`. -/
def idStep (id : List Char) : List Char :=
  match id with
  | c :: _ => if '0' ≤ c ∧ c ≤ '9' then ("heading-".toList) ++ id else id
  | [] => id

/-- Per-line heading recognition up to (but not including) the numeric
prefix and duplicate handling: trim the line, match the heading pattern,
strip an explicit identifier, clean the text, and derive an identifier
from the cleaned text when no explicit one was given. -/
def lineHeadingCore (line : List Char) : Option (Nat × List Char × List Char) :=
  match headingMatch (trimSpace line) with
  | none => none
  | some (lvl, m2) =>
    let rawText := trimSpace m2
    match findExplicitID rawText with
    | some (eid, t2) => some (lvl, cleanMarkdown t2, eid)
    | none =>
      let ct := cleanMarkdown rawText
      some (lvl, ct, generateHeadingID ct)

/-- Per-line heading recognition including the digit prefix (the
identifier entering duplicate resolution). -/
def lineHeading (line : List Char) : Option (Nat × List Char × List Char) :=
  match lineHeadingCore line with
  | some (lvl, t, id) => some (lvl, t, idStep id)
  | none => none

example : lineHeading ("  ## Intro \x7b#intro-1\x7d ".toList) =
    some (2, "Intro".toList, "intro-1".toList) := by rfl

example : lineHeading ("# 2.0 Release".toList) =
    some (1, "2.0 Release".toList, "heading-2-0-release".toList) := by rfl

example : lineHeading ("# !!!".toList) = some (1, "!!!".toList, []) := by rfl

/-- Decimal rendering of a natural number (`fmt.Sprintf("%d", n)`),
with structural fuel so that it reduces definitionally. -/
def natDecimalAux : Nat → Nat → List Char
  | 0, _ => []
  | fuel + 1, n =>
    if n < 10 then [Nat.digitChar n]
    else natDecimalAux fuel (n / 10) ++ [Nat.digitChar (n % 10)]

/-- Decimal rendering of a natural number. -/
def natDecimal (n : Nat) : List Char :=
  natDecimalAux (n + 1) n

example : natDecimal 1 = ['1'] := by rfl

example : natDecimal 210 = ['2', '1', '0'] := by rfl

/-- Lookup in the `usedIDs` map (modelled as an association list; keys
are inserted at most once, mirroring a Go `map[string]int`). -/
def lookupCount : List (List Char × Nat) → List Char → Option Nat
  | [], _ => none
  | (k, v) :: rest, o => if k = o then some v else lookupCount rest o

/-- Map assignment `usedIDs[k] = n`. -/
def setCount : List (List Char × Nat) → List Char → Nat → List (List Char × Nat)
  | [], o, n => [(o, n)]
  | (k, v) :: rest, o, n =>
    if k = o then (o, n) :: rest else (k, v) :: setCount rest o n

/-- A markdown heading record (`Heading` in the source). -/
structure Heading where
  Level : Nat
  Text : List Char
  ID : List Char
deriving DecidableEq

/-- The loop state of `extractHeadings`. -/
structure ExtractState where
  inCodeBlock : Bool
  usedIDs : List (List Char × Nat)
  headings : List Heading
deriving DecidableEq

/-- The loop body of `extractHeadings`: toggle on fence lines, skip
lines inside a fence, otherwise match a heading, resolve duplicate
identifiers against `usedIDs`, and append the record. -/
def processLine (st : ExtractState) (line : List Char) : ExtractState :=
  if isFenceLine line then ⟨!st.inCodeBlock, st.usedIDs, st.headings⟩
  else if st.inCodeBlock then st
  else
    match lineHeading line with
    | none => st
    | some (lvl, t, o) =>
      match lookupCount st.usedIDs o with
      | some c =>
        ⟨st.inCodeBlock, setCount st.usedIDs o (c + 1),
          st.headings ++ [⟨lvl, t, o ++ '-' :: natDecimal c⟩]⟩
      | none =>
        ⟨st.inCodeBlock, setCount st.usedIDs o 1, st.headings ++ [⟨lvl, t, o⟩]⟩

/-- Go `extractHeadings`: split into lines and run the loop. -/
def extractHeadings (content : List Char) : List Heading :=
  ((splitNl content).foldl processLine ⟨false, [], []⟩).headings

example : extractHeadings ("## Setup\n## Setup".toList) =
    [⟨2, "Setup".toList, "setup".toList⟩,
     ⟨2, "Setup".toList, "setup-1".toList⟩] := by rfl

example : extractHeadings ("```\n# hidden\n```".toList) = [] := by rfl

example : extractHeadings ("# foo\n# foo\n# foo-1".toList) =
    [⟨1, "foo".toList, "foo".toList⟩,
     ⟨1, "foo".toList, "foo-1".toList⟩,
     ⟨1, "foo-1".toList, "foo-1".toList⟩] := by rfl

/-- Opening-fence pattern of `fixIndentedCodeBlocks`:
`^(\s+)` + three-or-more backticks + `(\w*)`; returns the width of the
(maximal, nonempty) leading whitespace run. -/
def fixOpen (line : List Char) : Option Nat :=
  let sp := line.takeWhile reSpace
  let rest := line.drop sp.length
  if 1 ≤ sp.length ∧ 3 ≤ (rest.takeWhile (· = btk)).length then some sp.length
  else none

/-- Closing-fence pattern of `fixIndentedCodeBlocks`:
`^(\s+)` + three-or-more backticks + `$`. -/
def fixClose (line : List Char) : Option Nat :=
  let sp := line.takeWhile reSpace
  let rest := line.drop sp.length
  if 1 ≤ sp.length ∧ 3 ≤ rest.length ∧ rest.all (· = btk) then some sp.length
  else none

/-- The line loop of `fixIndentedCodeBlocks`: outside a fence, a 2–4
space indented opening fence enters fence state and gains two spaces;
inside, the matching-indent closing fence leaves fence state, and every
line gains two spaces. -/
def fixLines : Bool → Nat → List (List Char) → List (List Char)
  | _, _, [] => []
  | false, ci, l :: rest =>
    match fixOpen l with
    | some ind =>
      if 2 ≤ ind ∧ ind ≤ 4 then (' ' :: ' ' :: l) :: fixLines true ind rest
      else l :: fixLines false ci rest
    | none => l :: fixLines false ci rest
  | true, ci, l :: rest =>
    match fixClose l with
    | some ind =>
      if ind = ci then (' ' :: ' ' :: l) :: fixLines false 0 rest
      else if 0 < ci then (' ' :: ' ' :: l) :: fixLines true ci rest
      else l :: fixLines true ci rest
    | none =>
      if 0 < ci then (' ' :: ' ' :: l) :: fixLines true ci rest
      else l :: fixLines true ci rest

/-- Go `fixIndentedCodeBlocks`. -/
def fixIndentedCodeBlocks (content : List Char) : List Char :=
  joinNl (fixLines false 0 (splitNl content))

example : fixIndentedCodeBlocks ("- item\n  ```go\n  x\n  ```\nafter".toList) =
    ("- item\n    ```go\n    x\n    ```\nafter".toList) := by rfl

example : fixIndentedCodeBlocks ("# t\n```\ncode\n```".toList) =
    ("# t\n```\ncode\n```".toList) := by rfl

/-- A node of the client-side TOC tree (`buildTocTree` in the page
script): a heading with its nested children. -/
structure TocNode where
  level : Nat
  text : List Char
  id : List Char
  children : List TocNode

/-- The pop loop of `buildTocTree`: while the stack has an element below
the top and the top's level is at least the incoming heading's level,
close the top node by attaching it as the last child of the node below.
The stack is kept as (top, rest); the last element is the synthetic
level-0 sentinel. -/
def tocPop (lvl : Nat) : TocNode → List TocNode → TocNode × List TocNode
  | top, [] => (top, [])
  | top, parent :: rest =>
    if lvl ≤ top.level then
      tocPop lvl ⟨parent.level, parent.text, parent.id, parent.children ++ [top]⟩ rest
    else (top, parent :: rest)

/-- One step of `buildTocTree`: pop, then push the new node. -/
def tocStep (st : TocNode × List TocNode) (h : Heading) : TocNode × List TocNode :=
  let popped := tocPop h.Level st.1 st.2
  (⟨h.Level, h.Text, h.ID, []⟩, popped.1 :: popped.2)

/-- After all headings are processed, close every open node down to the
sentinel. -/
def tocFinish : TocNode → List TocNode → TocNode
  | top, [] => top
  | top, parent :: rest =>
    tocFinish ⟨parent.level, parent.text, parent.id, parent.children ++ [top]⟩ rest

/-- The client-side `buildTocTree`: fold the headings over the stack
seeded with the level-0 sentinel; the result is the sentinel's children
list. -/
def buildTocTree (headings : List Heading) : List TocNode :=
  let final := headings.foldl tocStep (⟨0, [], [], []⟩, [])
  (tocFinish final.1 final.2).children

/-- Boolean check that every node of a children list has level strictly
above `lvl` and that this holds recursively in every subtree. -/
def nodeOkList : Nat → List TocNode → Bool
  | _, [] => true
  | lvl, ⟨clvl, _, _, gcs⟩ :: rest =>
    decide (lvl < clvl) && nodeOkList clvl gcs && nodeOkList lvl rest

example :
    buildTocTree
      [⟨1, ['a'], ['a']⟩, ⟨2, ['b'], ['b']⟩, ⟨2, ['c'], ['c']⟩,
       ⟨3, ['d'], ['d']⟩, ⟨1, ['e'], ['e']⟩] =
    [⟨1, ['a'], ['a'],
       [⟨2, ['b'], ['b'], []⟩,
        ⟨2, ['c'], ['c'], [⟨3, ['d'], ['d'], []⟩]⟩]⟩,
     ⟨1, ['e'], ['e'], []⟩] := by rfl

/-- The fence-filtering and per-line recognition part of
`extractHeadings`, before duplicate resolution: the sequence of
(level, text, identifier) triples in document order. -/
def preHeadings : Bool → List (List Char) → List (Nat × List Char × List Char)
  | _, [] => []
  | inC, l :: rest =>
    if isFenceLine l then preHeadings (!inC) rest
    else if inC then preHeadings true rest
    else
      match lineHeading l with
      | some h => h :: preHeadings false rest
      | none => preHeadings false rest

/-- The duplicate-resolution part of `extractHeadings`, threading the
`usedIDs` map over the recognised triples. -/
def dedup : List (List Char × Nat) → List (Nat × List Char × List Char) → List Heading
  | _, [] => []
  | used, (lvl, t, o) :: rest =>
    match lookupCount used o with
    | some c => ⟨lvl, t, o ++ '-' :: natDecimal c⟩ :: dedup (setCount used o (c + 1)) rest
    | none => ⟨lvl, t, o⟩ :: dedup (setCount used o 1) rest

/-- The identifier emitted for an occurrence of identifier `o` preceded
by `c` prior occurrences of the same identifier. -/
def emitID (o : List Char) (c : Nat) : List Char :=
  if c = 0 then o else o ++ '-' :: natDecimal c

/-- Duplicate resolution re-expressed over the history of previously
processed identifiers instead of the count map. -/
def dedupSpecced (hist : List (List Char)) :
    List (Nat × List Char × List Char) → List Heading
  | [] => []
  | (lvl, t, o) :: rest =>
    ⟨lvl, t, emitID o (hist.count o)⟩ :: dedupSpecced (hist ++ [o]) rest

theorem foldl_processLine_decompose :
    ∀ (lines : List (List Char)) (inC : Bool) (used : List (List Char × Nat))
      (hs : List Heading),
    (lines.foldl processLine ⟨inC, used, hs⟩).headings
      = hs ++ dedup used (preHeadings inC lines) := by
  intro lines
  induction lines with
  | nil => intro inC used hs; simp [preHeadings, dedup]
  | cons l rest ih =>
    intro inC used hs
    simp only [List.foldl_cons]
    by_cases hf : isFenceLine l
    · simp only [processLine, hf, if_pos, preHeadings, ih]
    · cases inC with
      | true =>
        have : processLine ⟨true, used, hs⟩ l = ⟨true, used, hs⟩ := by
          simp [processLine, hf]
        rw [this, ih]
        simp [preHeadings, hf]
      | false =>
        rcases hl : lineHeading l with _ | ⟨lvl, t, o⟩
        · have : processLine ⟨false, used, hs⟩ l = ⟨false, used, hs⟩ := by
            simp [processLine, hf, hl]
          rw [this, ih]
          simp [preHeadings, hf, hl]
        · rcases hc : lookupCount used o with _ | c
          · have : processLine ⟨false, used, hs⟩ l
                = ⟨false, setCount used o 1, hs ++ [⟨lvl, t, o⟩]⟩ := by
              simp [processLine, hf, hl, hc]
            rw [this, ih]
            simp [preHeadings, hf, hl, dedup, hc]
          · have : processLine ⟨false, used, hs⟩ l
                = ⟨false, setCount used o (c + 1),
                    hs ++ [⟨lvl, t, o ++ '-' :: natDecimal c⟩]⟩ := by
              simp [processLine, hf, hl, hc]
            rw [this, ih]
            simp [preHeadings, hf, hl, dedup, hc]

theorem extractHeadings_eq_dedup (content : List Char) :
    extractHeadings content = dedup [] (preHeadings false (splitNl content)) := by
  have h := foldl_processLine_decompose (splitNl content) false [] []
  simpa [extractHeadings] using h

/-- The count map agrees with the history of processed identifiers. -/
def UsedInv (used : List (List Char × Nat)) (hist : List (List Char)) : Prop :=
  ∀ o, lookupCount used o = if hist.count o = 0 then none else some (hist.count o)

theorem lookupCount_setCount_self (used : List (List Char × Nat))
    (o : List Char) (n : Nat) : lookupCount (setCount used o n) o = some n := by
  induction used with
  | nil => simp [setCount, lookupCount]
  | cons kv rest ih =>
    rcases kv with ⟨k, v⟩
    by_cases h : k = o
    · simp [setCount, lookupCount, h]
    · simp [setCount, lookupCount, h, ih]

theorem lookupCount_setCount_ne (used : List (List Char × Nat))
    (o k : List Char) (n : Nat) (h : k ≠ o) :
    lookupCount (setCount used o n) k = lookupCount used k := by
  induction used with
  | nil =>
    simp only [setCount, lookupCount]
    rw [if_neg (fun heq => h heq.symm)]
  | cons kv rest ih =>
    rcases kv with ⟨k1, v1⟩
    simp only [setCount]
    by_cases h1 : k1 = o
    · subst h1
      rw [if_pos rfl]
      have hne : k1 ≠ k := fun heq => h heq.symm
      simp only [lookupCount]
      rw [if_neg hne, if_neg hne]
    · rw [if_neg h1]
      simp only [lookupCount]
      by_cases h2 : k1 = k
      · rw [if_pos h2, if_pos h2]
      · rw [if_neg h2, if_neg h2]
        exact ih

theorem usedInv_update (used : List (List Char × Nat)) (hist : List (List Char))
    (o : List Char) (hinv : UsedInv used hist) :
    UsedInv (setCount used o (hist.count o + 1)) (hist ++ [o]) := by
  intro k
  by_cases h : k = o
  · subst h
    rw [lookupCount_setCount_self]
    simp [List.count_append]
  · rw [lookupCount_setCount_ne _ _ _ _ h, hinv k]
    have : ([o].count k) = 0 := by
      simp [List.count_singleton]
      exact fun heq => h heq.symm
    simp [List.count_append, this]

theorem dedup_eq_specced :
    ∀ (pre : List (Nat × List Char × List Char)) (used : List (List Char × Nat))
      (hist : List (List Char)), UsedInv used hist →
    dedup used pre = dedupSpecced hist pre := by
  intro pre
  induction pre with
  | nil => intro used hist _; simp [dedup, dedupSpecced]
  | cons x rest ih =>
    intro used hist hinv
    rcases x with ⟨lvl, t, o⟩
    rcases hzero : hist.count o with _ | c
    · have hl : lookupCount used o = none := by rw [hinv o, hzero]; simp
      have hupd := usedInv_update used hist o hinv
      rw [hzero] at hupd
      simp only [dedup, dedupSpecced, hl, emitID, hzero]
      simp [ih _ _ hupd]
    · have hl : lookupCount used o = some (c + 1) := by rw [hinv o, hzero]; simp
      have hupd := usedInv_update used hist o hinv
      rw [hzero] at hupd
      simp only [dedup, dedupSpecced, hl, emitID, hzero]
      simp [ih _ _ hupd]

theorem extractHeadings_eq_specced (content : List Char) :
    extractHeadings content = dedupSpecced [] (preHeadings false (splitNl content)) := by
  rw [extractHeadings_eq_dedup]
  exact dedup_eq_specced _ _ [] (fun o => by simp [lookupCount])

theorem natDecimalAux_fuel :
    ∀ (f1 f2 n : Nat), n < f1 → n < f2 → natDecimalAux f1 n = natDecimalAux f2 n := by
  intro f1
  induction f1 with
  | zero => intro f2 n h1; omega
  | succ a ih =>
    intro f2 n h1 h2
    rcases f2 with _ | b
    · omega
    · by_cases hn : n < 10
      · simp [natDecimalAux, hn]
      · have hd : n / 10 < n := Nat.div_lt_self (by omega) (by omega)
        simp only [natDecimalAux, if_neg hn]
        rw [ih b (n / 10) (by omega) (by omega)]

theorem natDecimal_lt10 (n : Nat) (h : n < 10) :
    natDecimal n = [Nat.digitChar n] := by
  simp [natDecimal, natDecimalAux, h]

theorem natDecimal_ge10 (n : Nat) (h : 10 ≤ n) :
    natDecimal n = natDecimal (n / 10) ++ [Nat.digitChar (n % 10)] := by
  have hd : n / 10 < n := Nat.div_lt_self (by omega) (by omega)
  rw [show natDecimal n
      = if n < 10 then [Nat.digitChar n]
        else natDecimalAux n (n / 10) ++ [Nat.digitChar (n % 10)] from rfl]
  rw [if_neg (by omega : ¬n < 10)]
  rw [natDecimalAux_fuel n (n / 10 + 1) (n / 10) (by omega) (by omega)]
  rfl

theorem natDecimal_ne_nil (n : Nat) : natDecimal n ≠ [] := by
  by_cases h : n < 10
  · rw [natDecimal_lt10 n h]; simp
  · rw [natDecimal_ge10 n (by omega)]; simp

theorem digitChar_toNat (d : Nat) (h : d < 10) :
    (Nat.digitChar d).toNat = 48 + d := by
  interval_cases d <;> rfl

theorem digitChar_inj (a b : Nat) (ha : a < 10) (hb : b < 10)
    (h : Nat.digitChar a = Nat.digitChar b) : a = b := by
  have := congrArg Char.toNat h
  rw [digitChar_toNat a ha, digitChar_toNat b hb] at this
  omega

theorem natDecimal_inj : ∀ (m n : Nat), natDecimal m = natDecimal n → m = n := by
  intro m
  induction m using Nat.strong_induction_on with
  | _ m ih =>
    intro n h
    by_cases hm : m < 10
    · by_cases hn : n < 10
      · rw [natDecimal_lt10 m hm, natDecimal_lt10 n hn] at h
        injection h with h1 _
        exact digitChar_inj m n hm hn h1
      · exfalso
        rw [natDecimal_lt10 m hm, natDecimal_ge10 n (by omega)] at h
        have hlen := congrArg List.length h
        simp only [List.length_append, List.length_cons, List.length_nil] at hlen
        have hpos : 0 < (natDecimal (n / 10)).length :=
          List.length_pos.mpr (natDecimal_ne_nil _)
        omega
    · by_cases hn : n < 10
      · exfalso
        rw [natDecimal_ge10 m (by omega), natDecimal_lt10 n hn] at h
        have hlen := congrArg List.length h
        simp only [List.length_append, List.length_cons, List.length_nil] at hlen
        have hpos : 0 < (natDecimal (m / 10)).length :=
          List.length_pos.mpr (natDecimal_ne_nil _)
        omega
      · rw [natDecimal_ge10 m (by omega), natDecimal_ge10 n (by omega)] at h
        have hrev := congrArg List.reverse h
        simp [List.reverse_append] at hrev
        rcases hrev with ⟨hdig, hrest⟩
        have hmod : m % 10 = n % 10 :=
          digitChar_inj _ _ (Nat.mod_lt _ (by omega)) (Nat.mod_lt _ (by omega)) hdig
        have hdiv : m / 10 = n / 10 := by
          apply ih (m / 10) (Nat.div_lt_self (by omega) (by omega))
          have := congrArg List.reverse hrest
          simpa using this
        have hm10 := Nat.div_add_mod m 10
        have hn10 := Nat.div_add_mod n 10
        omega

theorem emitID_inj_count (o : List Char) (c c' : Nat) (h : c < c') :
    emitID o c ≠ emitID o c' := by
  intro heq
  rcases c with _ | k
  · rw [emitID, if_pos rfl, emitID, if_neg (by omega : ¬c' = 0)] at heq
    have hlen := congrArg List.length heq
    simp only [List.length_append, List.length_cons] at hlen
    omega
  · rw [emitID, if_neg (by omega : ¬k + 1 = 0),
      emitID, if_neg (by omega : ¬c' = 0)] at heq
    have h2 := List.append_cancel_left heq
    injection h2 with _ h3
    have := natDecimal_inj _ _ h3
    omega

theorem emitID_ne_nil (o : List Char) (c : Nat) (h : o ≠ []) : emitID o c ≠ [] := by
  rcases c with _ | k
  · rw [emitID, if_pos rfl]; exact h
  · rw [emitID, if_neg (by omega : ¬k + 1 = 0)]
    simp

theorem digitChar_not_space (d : Nat) (h : d < 10) :
    goIsSpace (Nat.digitChar d) = false := by
  interval_cases d <;> decide

theorem natDecimal_not_space :
    ∀ (n : Nat) (d : Char), d ∈ natDecimal n → goIsSpace d = false := by
  intro n
  induction n using Nat.strong_induction_on with
  | _ n ih =>
    intro d hd
    by_cases hn : n < 10
    · rw [natDecimal_lt10 n hn] at hd
      simp at hd
      rw [hd]
      exact digitChar_not_space n hn
    · rw [natDecimal_ge10 n (by omega)] at hd
      rcases List.mem_append.mp hd with h1 | h2
      · exact ih (n / 10) (Nat.div_lt_self (by omega) (by omega)) d h1
      · simp at h2
        rw [h2]
        exact digitChar_not_space _ (Nat.mod_lt _ (by omega))

theorem emitID_no_space (o : List Char) (c : Nat)
    (h : ∀ d ∈ o, goIsSpace d = false) :
    ∀ d ∈ emitID o c, goIsSpace d = false := by
  intro d hd
  rcases c with _ | k
  · rw [emitID, if_pos rfl] at hd
    exact h d hd
  · rw [emitID, if_neg (by omega : ¬k + 1 = 0)] at hd
    rcases List.mem_append.mp hd with h1 | h2
    · exact h d h1
    · rcases List.mem_cons.mp h2 with h3 | h4
      · rw [h3]; decide
      · exact natDecimal_not_space _ d h4

theorem dedupSpecced_getElem? :
    ∀ (pre : List (Nat × List Char × List Char)) (hist : List (List Char)) (i : Nat),
    (dedupSpecced hist pre)[i]? =
      (pre[i]?).map (fun x =>
        (⟨x.1, x.2.1,
          emitID x.2.2
            (hist.count x.2.2 +
              ((pre.take i).map (fun y => y.2.2)).count x.2.2)⟩ : Heading)) := by
  intro pre
  induction pre with
  | nil => intro hist i; simp [dedupSpecced]
  | cons hd rest ih =>
    intro hist i
    rcases hd with ⟨lvl, t, o⟩
    rcases i with _ | j
    · simp [dedupSpecced]
    · simp only [dedupSpecced, List.getElem?_cons_succ, List.take_succ_cons,
        List.map_cons]
      rw [ih (hist ++ [o]) j]
      rcases hx : rest[j]? with _ | x
      · rfl
      · simp only [Option.map_some']
        congr 2
        simp only [List.count_append, List.count_cons, List.count_nil]
        congr 1
        omega

theorem extractHeadings_getElem? (content : List Char) (i : Nat) :
    (extractHeadings content)[i]? =
      ((preHeadings false (splitNl content))[i]?).map (fun x =>
        (⟨x.1, x.2.1,
          emitID x.2.2
            ((((preHeadings false (splitNl content)).take i).map
              (fun y => y.2.2)).count x.2.2)⟩ : Heading)) := by
  rw [extractHeadings_eq_specced]
  have h := dedupSpecced_getElem? (preHeadings false (splitNl content)) [] i
  simpa using h

theorem count_take_mono (l : List (List Char)) (a : List Char)
    (i j : Nat) (h : i ≤ j) : (l.take i).count a ≤ (l.take j).count a := by
  have heq : l.take i = (l.take j).take i := by
    rw [List.take_take, Nat.min_eq_left h]
  rw [heq]
  exact (List.take_sublist i (l.take j)).count_le a

theorem count_take_succ (l : List (List Char)) (a : List Char)
    (i : Nat) (h : l[i]? = some a) :
    (l.take (i + 1)).count a = (l.take i).count a + 1 := by
  rw [List.take_succ, h]
  simp [List.count_append]

/-- C3: during extraction of one document, the first heading that yields
a given identifier keeps it unchanged, and the Nth repeat occurrence of
that identifier is emitted as the original identifier with a hyphen and
N appended; two headings both literally "Setup" yield ids "setup" then
"setup-1", in document order. -/
theorem C3_duplicate_suffix :
    (∀ (content : List Char) (i lvl : Nat) (t o : List Char),
      (preHeadings false (splitNl content))[i]? = some (lvl, t, o) →
      (extractHeadings content)[i]? = some ⟨lvl, t,
        if (((preHeadings false (splitNl content)).take i).map
              (fun y => y.2.2)).count o = 0
        then o
        else o ++ '-' :: natDecimal
          ((((preHeadings false (splitNl content)).take i).map
              (fun y => y.2.2)).count o)⟩)
    ∧ extractHeadings ("## Setup\n## Setup".toList) =
        [⟨2, "Setup".toList, "setup".toList⟩,
         ⟨2, "Setup".toList, "setup-1".toList⟩] := by
  constructor
  · intro content i lvl t o hpre
    rw [extractHeadings_getElem?, hpre]
    rfl
  · rfl

theorem C3_duplicate_suffix_witness :
    (preHeadings false (splitNl ("## Setup\n## Setup".toList)))[1]? =
        some (2, "Setup".toList, "setup".toList)
    ∧ (extractHeadings ("## Setup\n## Setup".toList))[1]? =
        some ⟨2, "Setup".toList, "setup".toList ++ '-' :: natDecimal 1⟩ := by
  constructor
  · rfl
  · have h := C3_duplicate_suffix.1 ("## Setup\n## Setup".toList) 1 2
      ("Setup".toList) ("setup".toList) rfl
    exact h

/-- C2 counterexample document: a heading whose cleaned text folds to an
empty slug, an explicit identifier containing a space, and the pattern
foo, foo, foo-1 whose disambiguation collides. -/
def c2Doc : List Char :=
  ("# !!!\n# T \x7b#x y\x7d\n# foo\n# foo\n# foo-1").toList

/-- C2 is false as stated: on `c2Doc` the extractor emits an empty id,
an id containing a space, and two equal ids "foo-1". -/
theorem C2_invariant_counterexample :
    (extractHeadings c2Doc).map Heading.ID =
      [[], "x y".toList, "foo".toList, "foo-1".toList, "foo-1".toList]
    ∧ ¬ (∀ h ∈ extractHeadings c2Doc,
          h.ID ≠ [] ∧ (∀ c ∈ h.ID, goIsSpace c = false) ∧
          (∀ h2 ∈ extractHeadings c2Doc, h ≠ h2 → h.ID ≠ h2.ID)) := by
  constructor
  · rfl
  · intro hall
    have h0 := hall ⟨1, "!!!".toList, []⟩ (by rw [show extractHeadings c2Doc =
      [⟨1, "!!!".toList, []⟩, ⟨1, ['T'], "x y".toList⟩,
       ⟨1, "foo".toList, "foo".toList⟩, ⟨1, "foo".toList, "foo-1".toList⟩,
       ⟨1, "foo-1".toList, "foo-1".toList⟩] from rfl]; simp)
    exact h0.1 rfl

/-- C2 amended: the id of every emitted heading is distinct from the id
of every other heading that carried the same pre-disambiguation
identifier; an emitted id is non-empty whenever its pre-disambiguation
identifier is, and contains no whitespace whenever its
pre-disambiguation identifier contains none.  (Full pairwise
distinctness, non-emptiness and whitespace-freedom fail on `c2Doc`.) -/
theorem C2_amended_id_invariant :
    (∀ (content : List Char) (i j : Nat) (o : List Char) (hi hj : Heading),
      ((preHeadings false (splitNl content)).map (fun y => y.2.2))[i]? = some o →
      ((preHeadings false (splitNl content)).map (fun y => y.2.2))[j]? = some o →
      i < j →
      (extractHeadings content)[i]? = some hi →
      (extractHeadings content)[j]? = some hj →
      hi.ID ≠ hj.ID)
    ∧ (∀ (content : List Char) (i : Nat) (o : List Char) (hi : Heading),
      ((preHeadings false (splitNl content)).map (fun y => y.2.2))[i]? = some o →
      (extractHeadings content)[i]? = some hi →
      (o ≠ [] → hi.ID ≠ []) ∧
      ((∀ c ∈ o, goIsSpace c = false) → ∀ c ∈ hi.ID, goIsSpace c = false)) := by
  constructor
  · intro content i j o hi hj hoi hoj hij hhi hhj
    rw [List.getElem?_map] at hoi hoj
    rcases hx : (preHeadings false (splitNl content))[i]? with _ | x
    · rw [hx] at hoi; simp at hoi
    rcases hy : (preHeadings false (splitNl content))[j]? with _ | y
    · rw [hy] at hoj; simp at hoj
    rw [hx] at hoi
    rw [hy] at hoj
    simp at hoi hoj
    rw [extractHeadings_getElem?, hx] at hhi
    rw [extractHeadings_getElem?, hy] at hhj
    simp only [Option.map_some'] at hhi hhj
    injection hhi with hhi
    injection hhj with hhj
    rw [← hhi, ← hhj]
    simp only []
    rw [hoi, hoj]
    set pre := preHeadings false (splitNl content) with hpre
    set om := pre.map (fun y => y.2.2) with hom
    have hmt : ∀ k : Nat, (pre.take k).map (fun y => y.2.2) = om.take k := by
      intro k
      rw [hom, List.map_take]
    show emitID o ((((pre.take i).map (fun y => y.2.2))).count o) ≠
      emitID o ((((pre.take j).map (fun y => y.2.2))).count o)
    rw [hmt i, hmt j]
    apply emitID_inj_count
    have homi : om[i]? = some o := by
      rw [hom, List.getElem?_map, hx]
      simp [hoi]
    have hstep : (om.take (i + 1)).count o = (om.take i).count o + 1 :=
      count_take_succ om o i homi
    have hmono : (om.take (i + 1)).count o ≤ (om.take j).count o :=
      count_take_mono om o (i + 1) j hij
    omega
  · intro content i o hi hoi hhi
    rw [List.getElem?_map] at hoi
    rcases hx : (preHeadings false (splitNl content))[i]? with _ | x
    · rw [hx] at hoi; simp at hoi
    rw [hx] at hoi
    simp at hoi
    rw [extractHeadings_getElem?, hx] at hhi
    simp only [Option.map_some'] at hhi
    injection hhi with hhi
    rw [← hhi]
    simp only []
    rw [hoi]
    constructor
    · intro hne
      exact emitID_ne_nil o _ hne
    · intro hns
      exact emitID_no_space o _ hns

theorem C2_amended_id_invariant_witness :
    ((⟨1, ['a'], ['a']⟩ : Heading).ID ≠
      (⟨1, ['a'], 'a' :: '-' :: natDecimal 1⟩ : Heading).ID)
    ∧ ((['a'] : List Char) ≠ [] → (⟨1, ['a'], ['a']⟩ : Heading).ID ≠ []) := by
  constructor
  · exact C2_amended_id_invariant.1 ("# a\n# a".toList) 0 1 ['a']
      ⟨1, ['a'], ['a']⟩ ⟨1, ['a'], 'a' :: '-' :: natDecimal 1⟩
      rfl rfl (by omega) rfl rfl
  · exact fun h => (C2_amended_id_invariant.2 ("# a\n# a".toList) 0 ['a']
      ⟨1, ['a'], ['a']⟩ rfl rfl).1 h

/-- C7: an identifier whose first character is a digit is prefixed with
the literal `heading-` before duplicate resolution, every emitted id
begins with its pre-disambiguation identifier, and the heading text
"2.0 Release" with no explicit id yields an id that is exactly
`heading-` followed by the folded slug of the text. -/
theorem C7_digit_prefix :
    (∀ (line : List Char) (lvl : Nat) (t : List Char) (c : Char) (rest : List Char),
      lineHeadingCore line = some (lvl, t, c :: rest) →
      '0' ≤ c → c ≤ '9' →
      lineHeading line = some (lvl, t, ("heading-".toList) ++ c :: rest))
    ∧ (∀ (content : List Char) (i lvl : Nat) (t o : List Char) (hi : Heading),
      (preHeadings false (splitNl content))[i]? = some (lvl, t, o) →
      (extractHeadings content)[i]? = some hi →
      ∃ tail, hi.ID = o ++ tail)
    ∧ extractHeadings ("# 2.0 Release".toList) =
        [⟨1, "2.0 Release".toList,
          ("heading-".toList) ++ generateHeadingID ("2.0 Release".toList)⟩] := by
  refine ⟨?_, ?_, rfl⟩
  · intro line lvl t c rest hcore h0 h9
    rw [lineHeading, hcore]
    show some (lvl, t, idStep (c :: rest)) =
      some (lvl, t, ("heading-".toList) ++ c :: rest)
    simp [idStep, h0, h9]
  · intro content i lvl t o hi hpre hhi
    rw [extractHeadings_getElem?, hpre] at hhi
    simp only [Option.map_some'] at hhi
    injection hhi with hhi
    rw [← hhi]
    simp only []
    rw [emitID]
    by_cases hz :
        ((((preHeadings false (splitNl content)).take i).map
          (fun y => y.2.2)).count o) = 0
    · rw [if_pos hz]
      exact ⟨[], by simp⟩
    · rw [if_neg hz]
      exact ⟨_, rfl⟩

theorem C7_digit_prefix_witness :
    lineHeading ("# 2.0 Release".toList) =
      some (1, "2.0 Release".toList, ("heading-".toList) ++ "2-0-release".toList) := by
  have h := C7_digit_prefix.1 ("# 2.0 Release".toList) 1 ("2.0 Release".toList)
    '2' ("-0-release".toList) rfl (by decide) (by decide)
  exact h

theorem splitNl_cons_ne (c : Char) (s : List Char) (hc : ¬c = '\n') :
    splitNl (c :: s) =
      match splitNl s with
      | [] => [[c]]
      | l :: ls => (c :: l) :: ls := by
  simp [splitNl, hc]

theorem splitNl_ne_nil : ∀ s : List Char, splitNl s ≠ [] := by
  intro s
  rcases s with _ | ⟨c, rest⟩
  · simp [splitNl]
  · by_cases h : c = '\n'
    · simp [splitNl, h]
    · simp only [splitNl, if_neg h]
      rcases splitNl rest with _ | ⟨l, ls⟩ <;> simp

theorem splitNl_no_newline : ∀ l : List Char, '\n' ∉ l → splitNl l = [l] := by
  intro l
  induction l with
  | nil => intro _; rfl
  | cons c rest ih =>
    intro h
    have hc : ¬c = '\n' := fun heq => h (by rw [heq]; exact List.mem_cons_self _ _)
    have hr : '\n' ∉ rest := fun hm => h (List.mem_cons_of_mem _ hm)
    simp only [splitNl, if_neg hc, ih hr]

theorem splitNl_append_newline : ∀ (xs ys : List Char), '\n' ∉ xs →
    splitNl (xs ++ '\n' :: ys) = xs :: splitNl ys := by
  intro xs
  induction xs with
  | nil => intro ys _; simp [splitNl]
  | cons c rest ih =>
    intro ys h
    have hc : ¬c = '\n' := fun heq => h (by rw [heq]; exact List.mem_cons_self _ _)
    have hr : '\n' ∉ rest := fun hm => h (List.mem_cons_of_mem _ hm)
    rw [List.cons_append, splitNl_cons_ne c _ hc, ih ys hr]

theorem splitNl_joinNl : ∀ ls : List (List Char), ls ≠ [] →
    (∀ l ∈ ls, '\n' ∉ l) → splitNl (joinNl ls) = ls := by
  intro ls
  induction ls with
  | nil => intro h; exact absurd rfl h
  | cons l rest ih =>
    intro _ hmem
    rcases rest with _ | ⟨l2, rest2⟩
    · exact splitNl_no_newline l (hmem l (List.mem_cons_self _ _))
    · rw [show joinNl (l :: l2 :: rest2) = l ++ '\n' :: joinNl (l2 :: rest2) from rfl]
      rw [splitNl_append_newline _ _ (hmem l (List.mem_cons_self _ _))]
      rw [ih (by simp) (fun x hx => hmem x (List.mem_cons_of_mem _ hx))]

theorem joinNl_splitNl : ∀ s : List Char, joinNl (splitNl s) = s := by
  intro s
  induction s with
  | nil => rfl
  | cons c rest ih =>
    by_cases hc : c = '\n'
    · subst hc
      rw [show splitNl ('\n' :: rest) = [] :: splitNl rest from by simp [splitNl]]
      rcases hs : splitNl rest with _ | ⟨l, ls⟩
      · exact absurd hs (splitNl_ne_nil rest)
      · rw [show joinNl ([] :: l :: ls) = [] ++ '\n' :: joinNl (l :: ls) from rfl]
        rw [hs] at ih
        rw [ih]
        rfl
    · rw [splitNl_cons_ne c rest hc]
      rcases hs : splitNl rest with _ | ⟨l, ls⟩
      · exact absurd hs (splitNl_ne_nil rest)
      · show joinNl ((c :: l) :: ls) = c :: rest
        rw [hs] at ih
        rcases ls with _ | ⟨l2, ls2⟩
        · rw [show joinNl [c :: l] = c :: l from rfl]
          rw [show joinNl [l] = l from rfl] at ih
          rw [ih]
        · rw [show joinNl ((c :: l) :: l2 :: ls2)
            = (c :: l) ++ '\n' :: joinNl (l2 :: ls2) from rfl]
          rw [show joinNl (l :: l2 :: ls2)
            = l ++ '\n' :: joinNl (l2 :: ls2) from rfl] at ih
          rw [List.cons_append, ih]

theorem processLine_inside (st : ExtractState) (line : List Char)
    (h : st.inCodeBlock = true) :
    (processLine st line).headings = st.headings := by
  by_cases hf : isFenceLine line
  · simp [processLine, hf]
  · simp [processLine, hf, h]

theorem foldl_inside_no_fence :
    ∀ (lines : List (List Char)) (st : ExtractState),
      st.inCodeBlock = true → (∀ l ∈ lines, isFenceLine l = false) →
      lines.foldl processLine st = st := by
  intro lines
  induction lines with
  | nil => intro st _ _; rfl
  | cons l rest ih =>
    intro st hin hfence
    have hf := hfence l (List.mem_cons_self _ _)
    have hstep : processLine st l = st := by
      simp [processLine, hf, hin]
    rw [List.foldl_cons, hstep]
    exact ih st hin (fun x hx => hfence x (List.mem_cons_of_mem _ hx))

theorem foldl_no_heading :
    ∀ (lines : List (List Char)) (st : ExtractState),
      (∀ l ∈ lines, lineHeading l = none) →
      (lines.foldl processLine st).headings = st.headings := by
  intro lines
  induction lines with
  | nil => intro st _; rfl
  | cons l rest ih =>
    intro st hnone
    rw [List.foldl_cons]
    have hl := hnone l (List.mem_cons_self _ _)
    have hrest : ∀ x ∈ rest, lineHeading x = none :=
      fun x hx => hnone x (List.mem_cons_of_mem _ hx)
    by_cases hf : isFenceLine l
    · rw [show processLine st l = ⟨!st.inCodeBlock, st.usedIDs, st.headings⟩ from by
        simp [processLine, hf]]
      exact ih _ hrest
    · by_cases hc : st.inCodeBlock
      · rw [show processLine st l = st from by simp [processLine, hf, hc]]
        exact ih _ hrest
      · rw [show processLine st l = st from by simp [processLine, hf, hc, hl]]
        exact ih _ hrest

theorem isFenceLine_nonspace_head (line : List Char) (c : Char) (r : List Char)
    (hd : line.dropWhile reSpace = c :: r) (hc : c ≠ btk) :
    isFenceLine line = false := by
  simp only [isFenceLine, hd, List.takeWhile_cons, if_neg]
  rw [if_neg (by simpa using hc)]
  rfl

theorem isFenceLine_hash (t : List Char) : isFenceLine ('#' :: t) = false := by
  apply isFenceLine_nonspace_head ('#' :: t) '#' t
  · rw [List.dropWhile_cons, if_neg (by decide)]
  · decide

/-- C5: a line inside a fenced code block never contributes a heading
record (whatever processLine does to a line while the fence state is
on, the heading list is unchanged), and a document consisting of a
fence line, any hash-led line, and a fence line yields no headings. -/
theorem C5_fence_hides_headings :
    (∀ (st : ExtractState) (line : List Char), st.inCodeBlock = true →
      (processLine st line).headings = st.headings)
    ∧ (∀ t : List Char, '\n' ∉ t →
      extractHeadings (("```\n#").toList ++ t ++ ("\n```").toList) = []) := by
  constructor
  · exact processLine_inside
  · intro t ht
    have harr : ("```\n#").toList ++ t ++ ("\n```").toList
        = "```".toList ++ '\n' :: (('#' :: t) ++ '\n' :: "```".toList) := by
      simp
    have hsplit : splitNl (("```\n#").toList ++ t ++ ("\n```").toList)
        = ["```".toList, '#' :: t, "```".toList] := by
      rw [harr, splitNl_append_newline _ _ (by decide),
        splitNl_append_newline _ _ (by simpa using ht),
        splitNl_no_newline _ (by decide)]
    rw [extractHeadings, hsplit]
    have h1 : processLine ⟨false, [], []⟩ ("```".toList) = ⟨true, [], []⟩ := rfl
    have h2 : processLine ⟨true, [], []⟩ ('#' :: t) = ⟨true, [], []⟩ := by
      simp [processLine, isFenceLine_hash]
    have h3 : processLine ⟨true, [], []⟩ ("```".toList) = ⟨false, [], []⟩ := rfl
    simp only [List.foldl_cons, List.foldl_nil, h1, h2, h3]

theorem C5_fence_hides_headings_witness :
    extractHeadings (("```\n#").toList ++ (" hidden").toList ++ ("\n```").toList)
      = [] :=
  C5_fence_hides_headings.2 (" hidden".toList) (by decide)

/-- C9: heading extraction is total (a total Lean function) and the empty
document, documents with no heading-matching line, and documents that
are a single fenced code block all yield an empty heading sequence and
an empty TOC forest. -/
theorem C9_total_and_empty_cases :
    extractHeadings [] = []
    ∧ buildTocTree [] = []
    ∧ (∀ content : List Char, (∀ l ∈ splitNl content, lineHeading l = none) →
        extractHeadings content = []
        ∧ buildTocTree (extractHeadings content) = [])
    ∧ (∀ body : List (List Char), (∀ l ∈ body, '\n' ∉ l) →
        (∀ l ∈ body, isFenceLine l = false) →
        extractHeadings (joinNl (("```".toList) :: body ++ [("```".toList)])) = []
        ∧ buildTocTree (extractHeadings
            (joinNl (("```".toList) :: body ++ [("```".toList)]))) = []) := by
  refine ⟨rfl, rfl, ?_, ?_⟩
  · intro content hnone
    have h := foldl_no_heading (splitNl content) ⟨false, [], []⟩ hnone
    constructor
    · exact h
    · rw [show extractHeadings content = [] from h]
      rfl
  · intro body hnl hfence
    have hsplit : splitNl (joinNl (("```".toList) :: body ++ [("```".toList)]))
        = ("```".toList) :: body ++ [("```".toList)] := by
      apply splitNl_joinNl
      · simp
      · intro l hl
        rcases List.mem_cons.mp hl with h1 | h2
        · rw [h1]; decide
        · rcases List.mem_append.mp h2 with h3 | h4
          · exact hnl l h3
          · simp at h4
            rw [h4]; decide
    have hrun : extractHeadings (joinNl (("```".toList) :: body ++ [("```".toList)]))
        = [] := by
      rw [extractHeadings, hsplit]
      simp only [List.foldl_cons, List.foldl_append,
        show processLine ⟨false, [], []⟩ ("```".toList) = ⟨true, [], []⟩ from rfl]
      rw [foldl_inside_no_fence body ⟨true, [], []⟩ rfl hfence]
      rfl
    exact ⟨hrun, by rw [hrun]; rfl⟩

theorem C9_total_and_empty_cases_witness :
    extractHeadings ("no headings\nhere".toList) = []
    ∧ extractHeadings (joinNl (("```".toList) :: ["# code".toList]
        ++ [("```".toList)])) = [] := by
  constructor
  · exact (C9_total_and_empty_cases.2.2.1 ("no headings\nhere".toList)
      (by decide)).1
  · exact (C9_total_and_empty_cases.2.2.2 ["# code".toList] (by decide)
      (by decide)).1

theorem reSpace_imp_goIsSpace (c : Char) (h : reSpace c = true) :
    goIsSpace c = true := by
  simp only [reSpace, Bool.or_eq_true, decide_eq_true_eq] at h
  rcases h with (((h | h) | h) | h) | h <;> subst h <;> decide

theorem dropWhile_head_not (p : Char → Bool) :
    ∀ (l : List Char) (c : Char) (r : List Char),
      l.dropWhile p = c :: r → p c = false := by
  intro l
  induction l with
  | nil => intro c r h; simp [List.dropWhile] at h
  | cons a rest ih =>
    intro c r h
    rw [List.dropWhile_cons] at h
    by_cases ha : p a
    · rw [if_pos ha] at h
      exact ih c r h
    · rw [if_neg ha] at h
      injection h with h1 _
      rw [← h1]
      exact Bool.eq_false_iff.mpr ha

theorem dropWhile_append_of_all (p : Char → Bool) (a b : List Char)
    (ha : ∀ c ∈ a, p c = true) :
    (a ++ b).dropWhile p = b.dropWhile p := by
  induction a with
  | nil => rfl
  | cons c rest ih =>
    rw [List.cons_append, List.dropWhile_cons,
      if_pos (ha c (List.mem_cons_self _ _))]
    exact ih (fun x hx => ha x (List.mem_cons_of_mem _ hx))

theorem dropTrailing_ne_nil (p : Char → Bool) (b : List Char)
    (h : ∃ c ∈ b, p c = false) : dropTrailing p b ≠ [] := by
  rcases h with ⟨c, hc, hpc⟩
  rw [dropTrailing]
  intro heq
  rw [List.reverse_eq_nil_iff] at heq
  rw [List.dropWhile_eq_nil_iff] at heq
  have := heq c (List.mem_reverse.mpr hc)
  rw [hpc] at this
  exact Bool.false_ne_true this

theorem dropTrailing_append (p : Char → Bool) (a b : List Char)
    (hb : dropTrailing p b ≠ []) :
    dropTrailing p (a ++ b) = a ++ dropTrailing p b := by
  have hb2 : b.reverse.dropWhile p ≠ [] := by
    intro heq
    apply hb
    rw [dropTrailing, heq]
    rfl
  rw [dropTrailing, List.reverse_append, List.dropWhile_append]
  rw [if_neg (by simpa [List.isEmpty_iff] using hb2)]
  rw [List.reverse_append, List.reverse_reverse]
  rfl

theorem dropWhile_reSpace_of_dropTrailing (text : List Char)
    (h : ∃ c ∈ text, goIsSpace c = false) :
    (dropTrailing goIsSpace text).dropWhile reSpace ≠ [] := by
  have hne : dropTrailing goIsSpace text ≠ [] := dropTrailing_ne_nil _ _ h
  rcases hrev : text.reverse.dropWhile goIsSpace with _ | ⟨c, r⟩
  · exact absurd (by rw [dropTrailing, hrev]; rfl) hne
  · have hc : goIsSpace c = false := dropWhile_head_not goIsSpace text.reverse c r hrev
    intro heq
    rw [List.dropWhile_eq_nil_iff] at heq
    have hmem : c ∈ dropTrailing goIsSpace text := by
      rw [dropTrailing, hrev]
      simp
    have := heq c hmem
    have := reSpace_imp_goIsSpace c this
    rw [hc] at this
    exact Bool.false_ne_true this

theorem takeWhile_hash_replicate (n : Nat) (c : Char) (r : List Char)
    (hc : ¬c = '#') :
    (List.replicate n '#' ++ c :: r).takeWhile (· = '#') = List.replicate n '#' := by
  induction n with
  | zero => simp [List.takeWhile_cons, hc]
  | succ m ih =>
    rw [List.replicate_succ, List.cons_append, List.takeWhile_cons]
    rw [if_pos (by decide)]
    rw [ih]

theorem drop_takeWhile_length (p : Char → Bool) : ∀ l : List Char,
    l.drop (l.takeWhile p).length = l.dropWhile p := by
  intro l
  induction l with
  | nil => rfl
  | cons a rest ih =>
    rw [List.takeWhile_cons, List.dropWhile_cons]
    by_cases ha : p a
    · rw [if_pos ha, if_pos ha]
      simp only [List.length_cons, List.drop_succ_cons]
      exact ih
    · rw [if_neg ha, if_neg ha]
      rfl

theorem headingMatch_of_shape (n : Nat) (rt : List Char)
    (h1 : 1 ≤ n) (h6 : n ≤ 6) (hrt : rt.dropWhile reSpace ≠ []) :
    headingMatch (List.replicate n '#' ++ ' ' :: rt)
      = some (n, rt.dropWhile reSpace) := by
  have htw : (List.replicate n '#' ++ ' ' :: rt).takeWhile (· = '#')
      = List.replicate n '#' := takeWhile_hash_replicate n ' ' rt (by decide)
  have hdr : (List.replicate n '#' ++ ' ' :: rt).drop n = ' ' :: rt :=
    List.drop_left' (List.length_replicate _ _)
  have hsp : (' ' :: rt).takeWhile reSpace = ' ' :: rt.takeWhile reSpace := by
    rw [List.takeWhile_cons, if_pos (by decide)]
  have hrem : (' ' :: rt).drop ((' ' :: rt).takeWhile reSpace).length
      = rt.dropWhile reSpace := by
    rw [drop_takeWhile_length, List.dropWhile_cons, if_pos (by decide)]
  simp only [headingMatch, htw, List.length_replicate, hdr, hrem]
  rw [if_pos ⟨h1, h6, by rw [hsp]; simp⟩]

theorem isFenceLine_space_cons (a : Char) (l : List Char) (ha : reSpace a = true) :
    isFenceLine (a :: l) = isFenceLine l := by
  rw [isFenceLine, isFenceLine, List.dropWhile_cons, if_pos ha]

theorem goIsSpace_ne_btk (a : Char) (ha : goIsSpace a = true) : a ≠ btk := by
  intro heq
  subst heq
  exact absurd ha (by decide)

theorem isFenceLine_allspace_hash (w : List Char) (r : List Char)
    (hw : ∀ c ∈ w, goIsSpace c = true) :
    isFenceLine (w ++ '#' :: r) = false := by
  induction w with
  | nil => exact isFenceLine_hash r
  | cons a rest ih =>
    rw [List.cons_append]
    by_cases ha : reSpace a
    · rw [isFenceLine_space_cons a _ ha]
      exact ih (fun x hx => hw x (List.mem_cons_of_mem _ hx))
    · apply isFenceLine_nonspace_head _ a (rest ++ '#' :: r)
      · rw [List.dropWhile_cons, if_neg ha]
      · exact goIsSpace_ne_btk a (hw a (List.mem_cons_self _ _))

theorem lineHeading_level (line : List Char) (lvl : Nat) (m2 : List Char)
    (h : headingMatch (trimSpace line) = some (lvl, m2)) :
    ∃ t o, lineHeading line = some (lvl, t, o) := by
  rcases hfe : findExplicitID (trimSpace m2) with _ | ⟨eid, t2⟩
  · refine ⟨cleanMarkdown (trimSpace m2),
      idStep (generateHeadingID (cleanMarkdown (trimSpace m2))), ?_⟩
    rw [lineHeading, lineHeadingCore, h]
    simp [hfe]
  · refine ⟨cleanMarkdown t2, idStep eid, ?_⟩
    rw [lineHeading, lineHeadingCore, h]
    simp [hfe]

/-- C10: for a line outside any code fence the extractor trims all
leading and trailing whitespace before testing the heading pattern, so
a heading line indented by any amount of whitespace still produces a
Heading record whose level is the number of leading hash characters. -/
theorem C10_indented_heading :
    ∀ (w : List Char) (n : Nat) (text : List Char),
      (∀ c ∈ w, goIsSpace c = true) → '\n' ∉ w →
      1 ≤ n → n ≤ 6 → '\n' ∉ text →
      (∃ c ∈ text, goIsSpace c = false) →
      (extractHeadings (w ++ List.replicate n '#' ++ ' ' :: text)).map Heading.Level
        = [n] := by
  intro w n text hw hwn h1 h6 htn htext
  have hrtne : dropTrailing goIsSpace text ≠ [] := dropTrailing_ne_nil _ _ htext
  have hdropne : (dropTrailing goIsSpace text).dropWhile reSpace ≠ [] :=
    dropWhile_reSpace_of_dropTrailing text htext
  rcases n with _ | m
  · omega
  have hnl : '\n' ∉ w ++ List.replicate (m + 1) '#' ++ ' ' :: text := by
    intro hmem
    rcases List.mem_append.mp hmem with hmem2 | hmem3
    · rcases List.mem_append.mp hmem2 with h2 | h3
      · exact hwn h2
      · have := List.eq_of_mem_replicate h3
        exact absurd this (by decide)
    · rcases List.mem_cons.mp hmem3 with h4 | h5
      · exact absurd h4 (by decide)
      · exact htn h5
  have hsplit : splitNl (w ++ List.replicate (m + 1) '#' ++ ' ' :: text)
      = [w ++ List.replicate (m + 1) '#' ++ ' ' :: text] :=
    splitNl_no_newline _ hnl
  have hfence : isFenceLine (w ++ List.replicate (m + 1) '#' ++ ' ' :: text)
      = false := by
    have : w ++ List.replicate (m + 1) '#' ++ ' ' :: text
        = w ++ '#' :: (List.replicate m '#' ++ ' ' :: text) := by
      rw [List.replicate_succ]
      simp
    rw [this]
    exact isFenceLine_allspace_hash w _ hw
  have htrim : trimSpace (w ++ List.replicate (m + 1) '#' ++ ' ' :: text)
      = List.replicate (m + 1) '#' ++ ' ' :: dropTrailing goIsSpace text := by
    rw [trimSpace, List.append_assoc,
      dropWhile_append_of_all goIsSpace w _ hw]
    rw [show List.replicate (m + 1) '#' ++ ' ' :: text
      = '#' :: (List.replicate m '#' ++ ' ' :: text) from by
        rw [List.replicate_succ]; simp]
    rw [List.dropWhile_cons, if_neg (by decide)]
    rw [show '#' :: (List.replicate m '#' ++ ' ' :: text)
      = (('#' :: List.replicate m '#') ++ [' ']) ++ text from by simp]
    rw [dropTrailing_append goIsSpace _ text hrtne]
    rw [List.replicate_succ]
    simp
  have hmatch : headingMatch (trimSpace
      (w ++ List.replicate (m + 1) '#' ++ ' ' :: text))
      = some (m + 1, (dropTrailing goIsSpace text).dropWhile reSpace) := by
    rw [htrim]
    exact headingMatch_of_shape (m + 1) _ (by omega) h6 hdropne
  rcases lineHeading_level _ _ _ hmatch with ⟨t, o, hlh⟩
  rw [extractHeadings, hsplit]
  rw [show List.foldl processLine ⟨false, [], []⟩
      [w ++ List.replicate (m + 1) '#' ++ ' ' :: text]
    = processLine ⟨false, [], []⟩
        (w ++ List.replicate (m + 1) '#' ++ ' ' :: text) from rfl]
  rw [show processLine ⟨false, [], []⟩
        (w ++ List.replicate (m + 1) '#' ++ ' ' :: text)
      = ⟨false, setCount [] o 1, [] ++ [⟨m + 1, t, o⟩]⟩ from by
    simp only [processLine, hfence, hlh, lookupCount, Bool.false_eq_true,
      if_false]]
  rfl

theorem C10_indented_heading_witness :
    (extractHeadings (("    ").toList ++ List.replicate 2 '#'
      ++ ' ' :: ("Hi").toList)).map Heading.Level = [2] :=
  C10_indented_heading ("    ".toList) 2 ("Hi".toList)
    (by decide) (by decide) (by omega) (by omega) (by decide)
    ⟨'H', by decide, by decide⟩

/-- The toggle condition of the C4 claim, written from the spec's words:
after trimming leading whitespace the line consists of three or more
backticks optionally followed immediately by a language tag (a run of
word characters, as in the repository's own fence-opening pattern). -/
def specFenceConsists (line : List Char) : Bool :=
  let t := line.dropWhile reSpace
  let bs := t.takeWhile (· = btk)
  (3 ≤ bs.length) && (t.drop bs.length).all reWord

theorem takeWhile_btk_three : ∀ m : List Char,
    (3 ≤ (m.takeWhile (· = btk)).length) ↔ m.take 3 = [btk, btk, btk] := by
  intro m
  rcases m with _ | ⟨a, m⟩
  · simp
  rcases m with _ | ⟨b, m⟩
  · by_cases ha : a = btk <;> simp [List.takeWhile_cons, ha]
  rcases m with _ | ⟨c, m⟩
  · by_cases ha : a = btk <;> by_cases hb : b = btk <;>
      simp [List.takeWhile_cons, ha, hb]
  · by_cases ha : a = btk <;> by_cases hb : b = btk <;> by_cases hc : c = btk <;>
      simp [List.takeWhile_cons, ha, hb, hc]

/-- C4 amended: in the extractor a line toggles the inside-code-block
state if and only if, after trimming leading whitespace, it starts with
three or more backticks, regardless of what follows them; every other
line leaves the state unchanged.  (The claim's requirement that the line
consist solely of backticks plus an optional language tag is refuted by
the counterexample.) -/
theorem C4_fence_toggle :
    ∀ (st : ExtractState) (line : List Char),
      (processLine st line).inCodeBlock =
        if (line.dropWhile reSpace).take 3 = [btk, btk, btk]
        then !st.inCodeBlock else st.inCodeBlock := by
  intro st line
  by_cases hf : isFenceLine line
  · have h3 : (line.dropWhile reSpace).take 3 = [btk, btk, btk] := by
      apply (takeWhile_btk_three _).mp
      simpa [isFenceLine] using hf
    rw [if_pos h3]
    simp [processLine, hf]
  · have h3 : ¬(line.dropWhile reSpace).take 3 = [btk, btk, btk] := by
      intro heq
      exact hf (by simpa [isFenceLine] using (takeWhile_btk_three _).mpr heq)
    rw [if_neg h3]
    rcases hst : st.inCodeBlock with _ | _
    · rcases hlh : lineHeading line with _ | ⟨lvl, t, o⟩
      · simp [processLine, hf, hst, hlh]
      · rcases hlk : lookupCount st.usedIDs o with _ | c <;>
          simp [processLine, hf, hst, hlh, hlk]
    · simp [processLine, hf, hst]

/-- C4 is false as stated: the line of three backticks followed by three
exclamation marks is not three-or-more backticks followed by a language
tag, yet the extractor toggles fence state on it. -/
theorem C4_fence_toggle_counterexample :
    isFenceLine (("```!!!").toList) = true
    ∧ specFenceConsists (("```!!!").toList) = false
    ∧ (processLine ⟨false, [], []⟩ (("```!!!").toList)).inCodeBlock = true := by
  exact ⟨rfl, rfl, rfl⟩

theorem fixLines_id :
    ∀ (lines : List (List Char)) (ci : Nat),
      (∀ l ∈ lines, ∀ i, fixOpen l = some i → ¬(2 ≤ i ∧ i ≤ 4)) →
      fixLines false ci lines = lines := by
  intro lines
  induction lines with
  | nil => intro ci _; rfl
  | cons l rest ih =>
    intro ci hno
    have hl := hno l (List.mem_cons_self _ _)
    have hrest : ∀ x ∈ rest, ∀ i, fixOpen x = some i → ¬(2 ≤ i ∧ i ≤ 4) :=
      fun x hx => hno x (List.mem_cons_of_mem _ hx)
    rcases ho : fixOpen l with _ | ind
    · rw [show fixLines false ci (l :: rest) = l :: fixLines false ci rest from by
        simp [fixLines, ho]]
      rw [ih ci hrest]
    · rw [show fixLines false ci (l :: rest) = l :: fixLines false ci rest from by
        simp [fixLines, ho, hl ind ho]]
      rw [ih ci hrest]

/-- C8: the indent fixer is the identity on any document that contains
no opening fence line indented by 2 to 4 whitespace characters. -/
theorem C8_fixer_identity :
    ∀ content : List Char,
      (∀ l ∈ splitNl content, ∀ i, fixOpen l = some i → ¬(2 ≤ i ∧ i ≤ 4)) →
      fixIndentedCodeBlocks content = content := by
  intro content hno
  rw [fixIndentedCodeBlocks, fixLines_id (splitNl content) 0 hno, joinNl_splitNl]

theorem C8_fixer_identity_witness :
    fixIndentedCodeBlocks (("# title\n\ntext\n```\ncode\n```").toList)
      = ("# title\n\ntext\n```\ncode\n```").toList :=
  C8_fixer_identity (("# title\n\ntext\n```\ncode\n```").toList) (by decide)

/-- A stack frame whose accumulated children are all strictly deeper
than the frame and recursively well-formed. -/
def frameOk (n : TocNode) : Prop :=
  nodeOkList n.level n.children = true

/-- The sentinel frame: its children need only be recursively
well-formed (no level constraint against the synthetic level 0). -/
def looseOk (n : TocNode) : Prop :=
  ∀ c ∈ n.children, nodeOkList c.level c.children = true

/-- Invariant of the `buildTocTree` stack (top first, sentinel last):
every non-sentinel frame is well-formed, and each frame except the
sentinel sits strictly deeper than the frame below it. -/
def StackOk : TocNode → List TocNode → Prop
  | a, [] => looseOk a
  | a, b :: rest => frameOk a ∧ (rest = [] ∨ b.level < a.level) ∧ StackOk b rest

theorem nodeOkList_iff : ∀ (lvl : Nat) (cs : List TocNode),
    nodeOkList lvl cs = true ↔
      ∀ c ∈ cs, lvl < c.level ∧ nodeOkList c.level c.children = true := by
  intro lvl cs
  induction cs with
  | nil => simp [nodeOkList]
  | cons c rest ih =>
    rcases c with ⟨clvl, t, i, gcs⟩
    simp only [nodeOkList, Bool.and_eq_true, decide_eq_true_eq,
      List.forall_mem_cons, ih]

theorem stackOk_attach (top parent : TocNode) (rs : List TocNode)
    (h : StackOk top (parent :: rs)) :
    StackOk ⟨parent.level, parent.text, parent.id,
      parent.children ++ [top]⟩ rs := by
  rcases h with ⟨hft, hadj, hsp⟩
  rcases rs with _ | ⟨b2, rs2⟩
  · show looseOk _
    intro c hc
    have hc2 : c ∈ parent.children ∨ c = top := by simpa using hc
    rcases hc2 with h1 | h2
    · exact hsp c h1
    · rw [h2]
      exact hft
  · rcases hsp with ⟨hfp, hadj2, hsp2⟩
    have hlt : parent.level < top.level := by
      rcases hadj with h | h
      · exact absurd h (by simp)
      · exact h
    refine ⟨?_, hadj2, hsp2⟩
    rw [frameOk]
    rw [show (⟨parent.level, parent.text, parent.id,
        parent.children ++ [top]⟩ : TocNode).level = parent.level from rfl]
    rw [show (⟨parent.level, parent.text, parent.id,
        parent.children ++ [top]⟩ : TocNode).children
      = parent.children ++ [top] from rfl]
    rw [nodeOkList_iff]
    intro c hc
    rcases List.mem_append.mp hc with h1 | h2
    · exact (nodeOkList_iff _ _).mp hfp c h1
    · have hct : c = top := by simpa using h2
      rw [hct]
      exact ⟨hlt, hft⟩

theorem tocPop_ok : ∀ (rest : List TocNode) (top : TocNode) (lvl : Nat),
    StackOk top rest →
    StackOk (tocPop lvl top rest).1 (tocPop lvl top rest).2
    ∧ ((tocPop lvl top rest).2 = [] ∨ (tocPop lvl top rest).1.level < lvl) := by
  intro rest
  induction rest with
  | nil =>
    intro top lvl h
    exact ⟨h, Or.inl rfl⟩
  | cons parent rs ih =>
    intro top lvl h
    by_cases hle : lvl ≤ top.level
    · rw [show tocPop lvl top (parent :: rs)
        = tocPop lvl ⟨parent.level, parent.text, parent.id,
            parent.children ++ [top]⟩ rs from by
        rw [tocPop, if_pos hle]]
      exact ih _ lvl (stackOk_attach top parent rs h)
    · rw [show tocPop lvl top (parent :: rs) = (top, parent :: rs) from by
        rw [tocPop, if_neg hle]]
      have hlt : top.level < lvl := by omega
      exact ⟨h, Or.inr hlt⟩

theorem tocStep_ok (st : TocNode × List TocNode) (h : Heading)
    (hok : StackOk st.1 st.2) : StackOk (tocStep st h).1 (tocStep st h).2 := by
  have hpop := tocPop_ok st.2 st.1 h.Level hok
  show StackOk ⟨h.Level, h.Text, h.ID, []⟩
    ((tocPop h.Level st.1 st.2).1 :: (tocPop h.Level st.1 st.2).2)
  refine ⟨?_, ?_, hpop.1⟩
  · rw [frameOk]
    show nodeOkList h.Level [] = true
    simp [nodeOkList]
  · rcases hpop.2 with h1 | h2
    · exact Or.inl h1
    · exact Or.inr h2

theorem foldl_tocStep_ok (hs : List Heading) :
    ∀ st : TocNode × List TocNode, StackOk st.1 st.2 →
      StackOk (hs.foldl tocStep st).1 (hs.foldl tocStep st).2 := by
  induction hs with
  | nil => intro st h; exact h
  | cons a rest ih =>
    intro st h
    rw [List.foldl_cons]
    exact ih _ (tocStep_ok st a h)

theorem tocFinish_ok : ∀ (rest : List TocNode) (top : TocNode),
    StackOk top rest → looseOk (tocFinish top rest) := by
  intro rest
  induction rest with
  | nil => intro top h; exact h
  | cons parent rs ih =>
    intro top h
    rw [show tocFinish top (parent :: rs)
      = tocFinish ⟨parent.level, parent.text, parent.id,
          parent.children ++ [top]⟩ rs from by rw [tocFinish]]
    exact ih _ (stackOk_attach top parent rs h)

/-- C6 amended: in the TOC forest built by the stack algorithm from any
flat heading sequence, every node's children (recursively) have level
strictly greater than the node's own level; and the heading levels
[1,2,2,3,1] produce two top-level nodes, the first with two children of
which the *second* has one child (the level-3 heading follows the second
level-2 heading, so it nests under it), the second top-level node
childless. -/
theorem C6_tree_invariant :
    (∀ (hs : List Heading) (n : TocNode), n ∈ buildTocTree hs →
      nodeOkList n.level n.children = true)
    ∧ buildTocTree
        [⟨1, ['a'], ['a']⟩, ⟨2, ['b'], ['b']⟩, ⟨2, ['c'], ['c']⟩,
         ⟨3, ['d'], ['d']⟩, ⟨1, ['e'], ['e']⟩] =
      [⟨1, ['a'], ['a'],
         [⟨2, ['b'], ['b'], []⟩,
          ⟨2, ['c'], ['c'], [⟨3, ['d'], ['d'], []⟩]⟩]⟩,
       ⟨1, ['e'], ['e'], []⟩] := by
  constructor
  · intro hs n hmem
    have hinit : StackOk (⟨0, [], [], []⟩ : TocNode) [] := by
      intro c hc
      simp at hc
    have hfold := foldl_tocStep_ok hs (⟨0, [], [], []⟩, []) hinit
    have hfin := tocFinish_ok _ _ hfold
    exact hfin n hmem
  · rfl

/-- C6 is false as stated: for heading levels [1,2,2,3,1] the first
top-level node's children have child counts [0, 1] — the *first*
level-2 child has no children (the claim asserts it has one); the
level-3 heading nests under the second level-2 child. -/
theorem C6_shape_counterexample :
    (buildTocTree
      [⟨1, ['a'], ['a']⟩, ⟨2, ['b'], ['b']⟩, ⟨2, ['c'], ['c']⟩,
       ⟨3, ['d'], ['d']⟩, ⟨1, ['e'], ['e']⟩]).map
      (fun n => n.children.map (fun c => c.children.length)) = [[0, 1], []] := by
  rfl

theorem C6_tree_invariant_witness :
    nodeOkList 1
      [⟨2, ['b'], ['b'], []⟩,
       ⟨2, ['c'], ['c'], [⟨3, ['d'], ['d'], []⟩]⟩] = true := by
  have h := C6_tree_invariant.1
    [⟨1, ['a'], ['a']⟩, ⟨2, ['b'], ['b']⟩, ⟨2, ['c'], ['c']⟩,
     ⟨3, ['d'], ['d']⟩, ⟨1, ['e'], ['e']⟩]
    ⟨1, ['a'], ['a'],
      [⟨2, ['b'], ['b'], []⟩,
       ⟨2, ['c'], ['c'], [⟨3, ['d'], ['d'], []⟩]⟩]⟩
    (by rw [C6_tree_invariant.2]; exact List.mem_cons_self _ _)
  exact h

theorem replRunsGo_cons_neg (p : Char → Bool) (flag : Bool) (c : Char)
    (rest : List Char) (h : p c = false) :
    replRunsGo p flag (c :: rest) = c :: replRunsGo p false rest := by
  rw [replRunsGo, if_neg (by simp [h])]

theorem replRunsGo_cons_pos_flag (p : Char → Bool) (c : Char)
    (rest : List Char) (h : p c = true) :
    replRunsGo p true (c :: rest) = replRunsGo p true rest := by
  simp [replRunsGo, h]

theorem replRunsGo_cons_pos_noflag (p : Char → Bool) (c : Char)
    (rest : List Char) (h : p c = true) :
    replRunsGo p false (c :: rest) = '-' :: replRunsGo p true rest := by
  simp [replRunsGo, h]

theorem canonGo_cons_alnum (flag : Bool) (c : Char) (rest : List Char)
    (h : (c.isAlpha || c.isDigit) = true) :
    canonGo flag (c :: rest) = c :: canonGo false rest := by
  simp [canonGo, h]

theorem canonGo_cons_other_flag (c : Char) (rest : List Char)
    (h : (c.isAlpha || c.isDigit) = false) :
    canonGo true (c :: rest) = canonGo true rest := by
  simp [canonGo, h]

theorem canonGo_cons_other_noflag (c : Char) (rest : List Char)
    (h : (c.isAlpha || c.isDigit) = false) :
    canonGo false (c :: rest) = '-' :: canonGo true rest := by
  simp [canonGo, h]

theorem reSpace_not_alnum (c : Char) (h : reSpace c = true) :
    (c.isAlpha || c.isDigit) = false := by
  simp only [reSpace, Bool.or_eq_true, decide_eq_true_eq] at h
  rcases h with (((h | h) | h) | h) | h <;> subst h <;> decide

theorem s2_not_alnum (c : Char) (h : spaceOrUnderscore c = true) :
    (c.isAlpha || c.isDigit) = false := by
  simp only [spaceOrUnderscore, Bool.or_eq_true, decide_eq_true_eq] at h
  rcases h with h | h
  · exact reSpace_not_alnum c h
  · subst h; decide

theorem alnum_imp (c : Char) (h : (c.isAlpha || c.isDigit) = true) :
    notWordSpaceDash c = false ∧ spaceOrUnderscore c = false ∧ c ≠ '-' := by
  have hA : c ≠ '-' := by
    intro heq; subst heq; exact absurd h (by decide)
  have hS : spaceOrUnderscore c = false := by
    cases hs : spaceOrUnderscore c
    · rfl
    · have := s2_not_alnum c hs
      rw [this] at h
      exact absurd h (by simp)
  have hr : reWord c = true := by
    rw [reWord]
    rcases Bool.or_eq_true_iff.mp h with h1 | h2
    · simp [h1]
    · simp [h2]
  refine ⟨?_, hS, hA⟩
  simp [notWordSpaceDash, hr]

theorem s2_imp_s1 (c : Char) (h : spaceOrUnderscore c = true) :
    notWordSpaceDash c = false := by
  simp only [spaceOrUnderscore, Bool.or_eq_true, decide_eq_true_eq] at h
  rcases h with h | h
  · simp [notWordSpaceDash, h]
  · subst h
    decide

theorem other_imp_s1 (c : Char) (hal : (c.isAlpha || c.isDigit) = false)
    (hd : c ≠ '-') (hs : spaceOrUnderscore c = false) :
    notWordSpaceDash c = true := by
  simp only [spaceOrUnderscore, Bool.or_eq_true, decide_eq_true_eq,
    Bool.or_eq_false_iff] at hs
  simp only [Bool.or_eq_false_iff] at hal
  simp [notWordSpaceDash, reWord, hal.1, hal.2, hs.1, hd]
  intro heq
  exact absurd heq (by simpa using hs.2)

theorem pipeline_eq_canon :
    ∀ (y : List Char) (a b r : Bool),
      (a = true → r = true) → (b = true → r = true) →
      replRunsGo (· = '-') r
        (replRunsGo spaceOrUnderscore b (replRunsGo notWordSpaceDash a y))
      = canonGo r y := by
  intro y
  induction y with
  | nil => intro a b r _ _; rcases a <;> rcases b <;> rcases r <;> rfl
  | cons c rest ih =>
    intro a b r ha hb
    by_cases hal : (c.isAlpha || c.isDigit) = true
    · obtain ⟨h1, h2, h3⟩ := alnum_imp c hal
      rw [replRunsGo_cons_neg _ a c _ h1,
        replRunsGo_cons_neg _ b c _ h2,
        replRunsGo_cons_neg _ r c _ (by simp [h3]),
        canonGo_cons_alnum r c rest hal]
      rw [ih false false false (fun h => h) (fun h => h)]
    · have halF : (c.isAlpha || c.isDigit) = false := by
        cases hx : (c.isAlpha || c.isDigit)
        · rfl
        · exact absurd hx hal
      by_cases hdash : c = '-'
      · subst hdash
        rw [replRunsGo_cons_neg _ a '-' _ (by decide),
          replRunsGo_cons_neg _ b '-' _ (by decide)]
        rcases r with _ | _
        · rw [replRunsGo_cons_pos_noflag _ '-' _ (by simp),
            canonGo_cons_other_noflag '-' rest halF]
          rw [ih false false true (fun _ => rfl) (fun _ => rfl)]
        · rw [replRunsGo_cons_pos_flag _ '-' _ (by simp),
            canonGo_cons_other_flag '-' rest halF]
          rw [ih false false true (fun _ => rfl) (fun _ => rfl)]
      · by_cases hs2 : spaceOrUnderscore c = true
        · rw [replRunsGo_cons_neg _ a c _ (s2_imp_s1 c hs2)]
          rcases b with _ | _
          · rw [replRunsGo_cons_pos_noflag _ c _ hs2]
            rcases r with _ | _
            · rw [replRunsGo_cons_pos_noflag _ '-' _ (by simp),
                canonGo_cons_other_noflag c rest halF]
              rw [ih false true true (fun _ => rfl) (fun _ => rfl)]
            · rw [replRunsGo_cons_pos_flag _ '-' _ (by simp),
                canonGo_cons_other_flag c rest halF]
              rw [ih false true true (fun _ => rfl) (fun _ => rfl)]
          · have hr : r = true := hb rfl
            subst hr
            rw [replRunsGo_cons_pos_flag _ c _ hs2,
              canonGo_cons_other_flag c rest halF]
            rw [ih false true true (fun _ => rfl) (fun _ => rfl)]
        · have hs2F : spaceOrUnderscore c = false := by
            cases hx : spaceOrUnderscore c
            · rfl
            · exact absurd hx hs2
          have hs1 : notWordSpaceDash c = true := other_imp_s1 c halF hdash hs2F
          rcases a with _ | _
          · rw [replRunsGo_cons_pos_noflag _ c _ hs1,
              replRunsGo_cons_neg _ b '-' _ (by decide)]
            rcases r with _ | _
            · rw [replRunsGo_cons_pos_noflag _ '-' _ (by simp),
                canonGo_cons_other_noflag c rest halF]
              rw [ih true false true (fun _ => rfl) (fun _ => rfl)]
            · rw [replRunsGo_cons_pos_flag _ '-' _ (by simp),
                canonGo_cons_other_flag c rest halF]
              rw [ih true false true (fun _ => rfl) (fun _ => rfl)]
          · have hr : r = true := ha rfl
            subst hr
            rw [replRunsGo_cons_pos_flag _ c _ hs1,
              canonGo_cons_other_flag c rest halF]
            rw [ih true b true (fun _ => rfl) (fun _ => rfl)]

theorem q_pipeline_eq_canon :
    ∀ (y : List Char) (a r : Bool), (a = true → r = true) →
      replRunsGo (· = '-') r (replRunsGo notAlnumDash a y) = canonGo r y := by
  intro y
  induction y with
  | nil => intro a r _; rcases a <;> rcases r <;> rfl
  | cons c rest ih =>
    intro a r ha
    by_cases hal : (c.isAlpha || c.isDigit) = true
    · have hq : notAlnumDash c = false := by
        simp [notAlnumDash, Bool.or_eq_true_iff.mp hal]
        rcases Bool.or_eq_true_iff.mp hal with h1 | h2
        · simp [h1]
        · simp [h2]
      have hd : c ≠ '-' := (alnum_imp c hal).2.2
      rw [replRunsGo_cons_neg _ a c _ hq,
        replRunsGo_cons_neg _ r c _ (by simp [hd]),
        canonGo_cons_alnum r c rest hal]
      rw [ih false false (fun h => h)]
    · have halF : (c.isAlpha || c.isDigit) = false := by
        cases hx : (c.isAlpha || c.isDigit)
        · rfl
        · exact absurd hx hal
      by_cases hdash : c = '-'
      · subst hdash
        rw [replRunsGo_cons_neg _ a '-' _ (by decide)]
        rcases r with _ | _
        · rw [replRunsGo_cons_pos_noflag _ '-' _ (by simp),
            canonGo_cons_other_noflag '-' rest halF]
          rw [ih false true (fun _ => rfl)]
        · rw [replRunsGo_cons_pos_flag _ '-' _ (by simp),
            canonGo_cons_other_flag '-' rest halF]
          rw [ih false true (fun _ => rfl)]
      · have hq : notAlnumDash c = true := by
          simp [notAlnumDash, Bool.or_eq_false_iff.mp halF, hdash]
        rcases a with _ | _
        · rw [replRunsGo_cons_pos_noflag _ c _ hq]
          rcases r with _ | _
          · rw [replRunsGo_cons_pos_noflag _ '-' _ (by simp),
              canonGo_cons_other_noflag c rest halF]
            rw [ih true true (fun _ => rfl)]
          · rw [replRunsGo_cons_pos_flag _ '-' _ (by simp),
              canonGo_cons_other_flag c rest halF]
            rw [ih true true (fun _ => rfl)]
        · have hr : r = true := ha rfl
          subst hr
          rw [replRunsGo_cons_pos_flag _ c _ hq,
            canonGo_cons_other_flag c rest halF]
          rw [ih true true (fun _ => rfl)]

/-- C1 amended: for every cleaned heading text with no explicit
identifier, the derived identifier equals the result of lower-casing
the text, replacing every maximal run of characters that are not
letters, digits, or hyphens with a single hyphen (in particular
underscores and whitespace are replaced by hyphens), collapsing
consecutive hyphens into one, and trimming leading and trailing
hyphens. -/
theorem C1_slug_amended :
    (∀ text : List Char, generateHeadingID text = amendedSlug text)
    ∧ generateHeadingID ("My_Heading Name!".toList) = ("my-heading-name".toList) := by
  constructor
  · intro text
    rw [generateHeadingID, amendedSlug]
    simp only [replRuns]
    rw [pipeline_eq_canon (text.map goToLower) false false false
      (fun h => h) (fun h => h)]
    rw [q_pipeline_eq_canon (text.map goToLower) false false (fun h => h)]
  · rfl

/-- C1 is false as stated: underscores are not preserved.  The cleaned
heading text a, underscore, b folds to a-b in the code, while the
claim's rule (which preserves underscores) gives a_b. -/
theorem C1_slug_counterexample :
    cleanMarkdown ("a_b".toList) = ("a_b".toList)
    ∧ claimSlug ("a_b".toList) = ("a_b".toList)
    ∧ generateHeadingID ("a_b".toList) = ("a-b".toList)
    ∧ ("a-b".toList ≠ "a_b".toList) := by
  exact ⟨rfl, rfl, rfl, by decide⟩
